import Mathlib

/-!
Shallow embedding of the `rearranger` dedup tool.

Keys are opaque byte strings (`List Nat`), relative output paths are character
lists (`List Char`).  The RocksDB-backed transactional map of `db.rs` is
modelled as an association list with unique keys: `get_for_update` is
`storeLookup`, `put` is `storePut` (replace-or-append), and the per-key
transaction is the atomic step `insert`.  The write-back loop of
`LineDb::write` is modelled as explicit state passing (`writeStep`/`writeGo`),
with the opened output files materialised in the state so that the on-disk
side effects are visible to theorems.
-/

namespace Rearranger

/-- Byte-string key produced by `Format::key`. -/
abbrev Key := List Nat

/-- Relative output path produced by `Format::path` (a single file name). -/
abbrev RPath := List Char

/-- The error enumeration of `db.rs` (`db::Error`).  `io`, `utf8` and `db`
carry no information needed by the model but are kept so the shape of the
enumeration matches the source. -/
inductive DbError (F : Type) where
  | format (e : F)
  | io (code : Nat)
  | utf8
  | db
  | invalidPath (path : RPath) (key : Key)
  | invalidState
deriving DecidableEq

/-- Model of `Location` from `lib.rs`: a path (file name) and a 1-based line number. -/
structure Location where
  path : String
  line_number : Nat
deriving DecidableEq

/-- Model of `Replacement` from `lib.rs`. -/
structure Replacement where
  old_value : String
  new_value : String
deriving DecidableEq

/-- Model of `Repeat` from `lib.rs`: an instance of a repeated key; `replacement = none`
is a duplicate, `replacement = some _` is a collision. -/
structure Repeat where
  location : Location
  replacement : Option Replacement
deriving DecidableEq

/-- Model of `Repeat::is_collision`. -/
def Repeat.is_collision (r : Repeat) : Bool :=
  r.replacement.isSome

/-- The dedup store contents: association list from key to current line. -/
abbrev Store := List (Key × String)

/-- Lookup in an association list (models the point read `get_for_update`). -/
def assocLookup {α β : Type} [DecidableEq α] : List (α × β) → α → Option β
  | [], _ => none
  | (a, b) :: rest, a' => if a = a' then some b else assocLookup rest a'

/-- Model of `put`: replace the value of an existing key, or append a new entry. -/
def storePut : Store → Key → String → Store
  | [], k, v => [(k, v)]
  | (k', v') :: rest, k, v =>
    if k' = k then (k, v) :: rest else (k', v') :: storePut rest k v

/-- Model of `LineDb::count`: number of records (the store holds one per distinct key). -/
def storeCount (s : Store) : Nat := s.length

/-- Model of `LineDb::insert` from `db.rs` (lines 60–83): derive the key, read the
current value under the per-key transaction, classify, then put the new line
and commit.  Returns the previous value for the key if one existed:
`none` (key absent), `some none` (present, byte-equal), or
`some (some old)` (present, different). -/
def insert {F : Type} (keyFn : String → Except F Key) (store : Store)
    (line : String) : Except (DbError F) (Option (Option String) × Store) :=
  match keyFn line with
  | .error e => .error (.format e)
  | .ok key =>
    let value := assocLookup store key
    let result : Option (Option String) :=
      match value with
      | some bytes => if bytes ≠ line then some (some bytes) else some none
      | none => none
    .ok (result, storePut store key line)

/-- The repeat-recording step of `session::run` (lines 79–92): a `none`
outcome records nothing; `some replaced` records a `Repeat` at the line's
location, with `replacement` carrying the old and new values on a collision. -/
def recordRepeat (path : String) (line_number : Nat) (line : String)
    (replaced : Option (Option String)) : Option Repeat :=
  replaced.map fun r =>
    { location := { path := path, line_number := line_number },
      replacement := r.map fun value => { old_value := value, new_value := line } }

/-- Sequential ingestion of a list of lines into the store, one atomic
`insert` per line (the linearisation of the worker pool's insert calls). -/
def ingest {F : Type} (keyFn : String → Except F Key) (store : Store) :
    List String → Except (DbError F) Store
  | [] => .ok store
  | l :: rest =>
    match insert keyFn store l with
    | .error e => .error e
    | .ok (_, store') => ingest keyFn store' rest

/-- Model of `WriteReport` from `report.rs`. -/
structure WriteReport where
  file_counts : List (RPath × Nat)
deriving DecidableEq

/-- Model of `WriteReport::file_count`. -/
def WriteReport.file_count (r : WriteReport) : Nat :=
  r.file_counts.length

/-- Model of `WriteReport::line_count`: sum of the per-path counts. -/
def WriteReport.line_count (r : WriteReport) : Nat :=
  (r.file_counts.map Prod.snd).sum

/-- Model of `RunReport` from `report.rs`. -/
structure RunReport where
  repeats : List Repeat
  write_report : WriteReport
deriving DecidableEq

/-- Model of `RunReport::duplicate_count`: repeats that are not collisions. -/
def RunReport.duplicate_count (r : RunReport) : Nat :=
  (r.repeats.filter fun x => !x.is_collision).length

/-- Model of `RunReport::collision_count`: repeats that are collisions. -/
def RunReport.collision_count (r : RunReport) : Nat :=
  (r.repeats.filter fun x => x.is_collision).length

/-! ### File-name extension handling (`std::path` semantics on one component) -/

/-- Split a file name at its last `'.'`: `some (before, after)` when a dot
exists, `none` otherwise. -/
def splitAtLastDot : List Char → Option (List Char × List Char)
  | [] => none
  | c :: rest =>
    match splitAtLastDot rest with
    | some (b, a) => some (c :: b, a)
    | none => if c = '.' then some ([], rest) else none

/-- Model of `Path::extension` for a single-component path: the part after the last
dot, unless the name has no dot or the only dot is leading (hidden file). -/
def rustExtension (name : List Char) : Option (List Char) :=
  match splitAtLastDot name with
  | some (before, after) => if before = [] then none else some after
  | none => none

/-- Model of `Path::set_extension` (with a non-empty new extension) for a
single-component path: replace the part after the last dot, or append
`'.' :: ext` when the name has no extension. -/
def rustSetExtension (name ext : List Char) : List Char :=
  match splitAtLastDot name with
  | some (before, _) => if before = [] then name ++ '.' :: ext else before ++ '.' :: ext
  | none => name ++ '.' :: ext

/-- Model of `ZSTD_EXTENSION` from `db.rs`. -/
def zstdSuffix : List Char := ['z', 's', 't']

/-- The output-name computation of `LineDb::write` (lines 108–116) when a
compression level is present: take the existing extension (empty when
absent), append `"."` if non-empty, append `"zst"`, and set the result as
the new extension. -/
def zstOutputName (path : RPath) : RPath :=
  let extension := rustExtension path
  let newExtension0 := extension.getD []
  let newExtension1 :=
    if newExtension0 ≠ [] then newExtension0 ++ ['.'] else newExtension0
  let newExtension := newExtension1 ++ zstdSuffix
  rustSetExtension path newExtension

/-! ### Write-back (`LineDb::write`) -/

/-- An open or finalised output file: its on-disk name (after any
compression-suffix mangling), whether it goes through the zstd encoder, and
the strings written to it, in order (each one the output of a `writeln!`). -/
structure Writer where
  name : RPath
  compressed : Bool
  written : List String
deriving DecidableEq

/-- Model of `writeln!(writer, "{}", value)`: the value followed by a line terminator. -/
def writelnStr (value : String) : String := value ++ "\n"

/-- The loop state of `LineDb::write`: the per-path line counts, the path of
the previous record, the currently open writer, and the already-finalised
writers (files closed because a new path was opened). -/
structure WriteState where
  file_counts : List (RPath × Nat)
  last_path : Option RPath
  writer : Option Writer
  closed : List Writer
deriving DecidableEq

/-- Increment the count of the first entry for `path` (the `*count += 1` on
the occupied entry). -/
def countsBump : List (RPath × Nat) → RPath → List (RPath × Nat)
  | [], _ => []
  | (p, n) :: rest, path =>
    if p = path then (p, n + 1) :: rest else (p, n) :: countsBump rest path

/-- Opening the output writer for a freshly seen path (`LineDb::write`
lines 106–127): with compression, a zstd encoder writing to the
suffix-mangled name; without, a plain buffered writer at the path itself. -/
def openWriter (compression : Option Nat) (path : RPath) : Writer :=
  match compression with
  | some _ => { name := zstOutputName path, compressed := true, written := [] }
  | none => { name := path, compressed := false, written := [] }

/-- One iteration of the scan loop in `LineDb::write` (lines 95–152).
Derive the record's path; on a path change, a previously counted path is a
fatal `InvalidPath`, otherwise the previous writer is finalised, a new one
opened, and a zero count inserted (`or_default`); on the same path the count
entry and an open writer must already exist (`InvalidState` otherwise).  In
both cases the count is incremented and the value written with a trailing
line terminator. -/
def writeStep {F : Type} (pathFn : Key → Except F RPath) (compression : Option Nat)
    (st : WriteState) (record : Key × String) : Except (DbError F) WriteState :=
  match pathFn record.1 with
  | .error e => .error (.format e)
  | .ok path =>
    if some path ≠ st.last_path then
      match assocLookup st.file_counts path with
      | some _ => .error (.invalidPath path record.1)
      | none =>
        let opened : WriteState :=
          { file_counts := st.file_counts ++ [(path, 0)]
            last_path := some path
            writer := some (openWriter compression path)
            closed := st.closed ++ st.writer.toList }
        match opened.writer with
        | some w =>
          .ok { opened with
                file_counts := countsBump opened.file_counts path
                writer := some { w with written := w.written ++ [writelnStr record.2] } }
        | none => .error .invalidState
    else
      match assocLookup st.file_counts path with
      | none => .error .invalidState
      | some _ =>
        match st.writer with
        | some w =>
          .ok { st with
                file_counts := countsBump st.file_counts path
                writer := some { w with written := w.written ++ [writelnStr record.2] } }
        | none => .error .invalidState

/-- The scan loop of `LineDb::write`, processing the ordered records. -/
def writeGo {F : Type} (pathFn : Key → Except F RPath) (compression : Option Nat)
    (st : WriteState) : List (Key × String) → Except (DbError F) WriteState
  | [] => .ok st
  | r :: rest =>
    match writeStep pathFn compression st r with
    | .error e => .error e
    | .ok st' => writeGo pathFn compression st' rest

/-- The initial loop state of `LineDb::write` (lines 91–93). -/
def initWriteState : WriteState :=
  { file_counts := [], last_path := none, writer := none, closed := [] }

/-- Model of `LineDb::write` on an ordered scan: run the loop from the empty state and
return the `WriteReport` together with the output files produced (the
finalised writers plus the still-open one, flushed at the end). -/
def writeBack {F : Type} (pathFn : Key → Except F RPath) (compression : Option Nat)
    (records : List (Key × String)) : Except (DbError F) (WriteReport × List Writer) :=
  match writeGo pathFn compression initWriteState records with
  | .error e => .error e
  | .ok st => .ok ({ file_counts := st.file_counts }, st.closed ++ st.writer.toList)

/-- Whether a write-back result is the defensive `InvalidState` error. -/
def isInvalidStateErr {F α : Type} : Except (DbError F) α → Bool
  | .error .invalidState => true
  | _ => false

/-! ### Path ordering (`session::sort_paths`) -/

/-- Model of `sort_paths` in the `BySizeInterspersed` mode (session.rs lines 166–181):
pair each path with its byte size, sort ascending by size (`sort_by_key` is
stable, as is `mergeSort`), split off the upper half at `len / 2`, reverse
it, and emit lower half then reversed upper half. -/
def sortPathsBySizeInterspersed {P : Type} (sizeFn : P → Nat) (paths : List P) :
    List P :=
  let withSize := paths.map fun p => (sizeFn p, p)
  let sorted := withSize.mergeSort fun a b => a.1 ≤ b.1
  let lower := sorted.take (sorted.length / 2)
  let upper := (sorted.drop (sorted.length / 2)).reverse
  (lower ++ upper).map Prod.snd

/-! ### Line source (`lines.rs`) -/

/-- The error enumeration of `lines.rs`. -/
inductive LinesError where
  | file (path : String) (code : Nat)
  | line (location : Location) (code : Nat)
  | invalidPath (path : String)
deriving DecidableEq

deriving instance DecidableEq for Except

/-- What the file system holds at a path that is a regular file: whether
opening fails, whether zstd decoder creation fails, and the line streams the
three reader configurations would yield (`Err` entries are mid-stream read
failures, carried as abstract I/O error codes). -/
structure FileEntry where
  openError : Option Nat
  zstInitError : Option Nat
  gzItems : List (Except Nat String)
  zstItems : List (Except Nat String)
  plainItems : List (Except Nat String)
deriving DecidableEq

/-- Model of `LineReader::next` (lines.rs lines 80–98) iterated to exhaustion: the
stored `line_number` starts at `n` and is incremented before each item is
yielded, attaching the path and current line number to any read failure. -/
def lineReaderGo (path : String) : Nat → List (Except Nat String) →
    List (Except LinesError (Nat × String))
  | _, [] => []
  | n, item :: rest =>
    (match item with
     | .ok line => Except.ok (n + 1, line)
     | .error e => Except.error (.line { path := path, line_number := n + 1 } e))
      :: lineReaderGo path (n + 1) rest

/-- Model of `LineReader::new` followed by full iteration: `line_number` starts at 0. -/
def lineReaderItems (path : String) (items : List (Except Nat String)) :
    List (Except LinesError (Nat × String)) :=
  lineReaderGo path 0 items

/-- Model of `lines` (lines.rs lines 26–61): a non-file or extension-less path is
`InvalidPath`; otherwise open the file (failure carries the path), then pick
the reader by lower-cased extension: `gz` and `zst` decompress (zstd decoder
creation may fail), anything else is read as plain text. -/
def linesFn (fs : String → Option FileEntry) (path : String) :
    Except LinesError (List (Except LinesError (Nat × String))) :=
  match fs path with
  | none => .error (.invalidPath path)
  | some entry =>
    match rustExtension path.toList with
    | none => .error (.invalidPath path)
    | some ext =>
      match entry.openError with
      | some code => .error (.file path code)
      | none =>
        let extLower := ext.map Char.toLower
        if extLower = ['g', 'z'] then
          .ok (lineReaderItems path entry.gzItems)
        else if extLower = ['z', 's', 't'] then
          match entry.zstInitError with
          | some code => .error (.file path code)
          | none => .ok (lineReaderItems path entry.zstItems)
        else
          .ok (lineReaderItems path entry.plainItems)

/-! ### Helper lemmas about the store -/

theorem assocLookup_storePut_self (s : Store) (k : Key) (v : String) :
    assocLookup (storePut s k v) k = some v := by
  induction s with
  | nil => simp [storePut, assocLookup]
  | cons head rest ih =>
    obtain ⟨k', v'⟩ := head
    by_cases h : k' = k <;> simp [storePut, assocLookup, h, ih]

theorem storePut_storePut_self (s : Store) (k : Key) (v : String) :
    storePut (storePut s k v) k v = storePut s k v := by
  induction s with
  | nil => simp [storePut]
  | cons head rest ih =>
    obtain ⟨k', v'⟩ := head
    by_cases h : k' = k <;> simp [storePut, h, ih]

/-! ### Concrete fixtures used by witnesses and counterexamples -/

/-- A concrete key function: the key of a line is its length, as one byte. -/
def kfLen : String → Except Unit Key := fun s => .ok [s.length]

/-- A concrete path function: one letter per first key byte. -/
def pfLetter : Key → Except Unit RPath := fun k => .ok [Char.ofNat (97 + k.headD 0)]

/-- Five repeats: three duplicates and two collisions. -/
def repeatsExample : List Repeat :=
  [{ location := { path := "f", line_number := 1 }, replacement := none },
   { location := { path := "f", line_number := 2 },
     replacement := some { old_value := "a", new_value := "b" } },
   { location := { path := "f", line_number := 3 }, replacement := none },
   { location := { path := "g", line_number := 1 }, replacement := none },
   { location := { path := "g", line_number := 2 },
     replacement := some { old_value := "c", new_value := "d" } }]

/-! ### Claim theorems -/

/-- C1: `insert(line)` classifies the key state: key absent ⇒ store the line
and return `none` (no repeat recorded); key present with a byte-equal value ⇒
rewrite and return `some none` (recorded as a repeat with `replacement =
none`); key present with a different value ⇒ store the line and return
`some (some old)` (recorded as a repeat whose replacement has `old_value` the
prior stored value and `new_value` the inserted line). -/
theorem insert_classifies {F : Type} (keyFn : String → Except F Key)
    (store : Store) (line : String) (key : Key) (hk : keyFn line = .ok key) :
    (assocLookup store key = none →
      insert keyFn store line = .ok (none, storePut store key line) ∧
      ∀ p n, recordRepeat p n line none = none) ∧
    (assocLookup store key = some line →
      insert keyFn store line = .ok (some none, storePut store key line) ∧
      ∀ p n, recordRepeat p n line (some none) =
        some { location := { path := p, line_number := n }, replacement := none }) ∧
    (∀ old, assocLookup store key = some old → old ≠ line →
      insert keyFn store line = .ok (some (some old), storePut store key line) ∧
      ∀ p n, recordRepeat p n line (some (some old)) =
        some { location := { path := p, line_number := n },
               replacement := some { old_value := old, new_value := line } }) := by
  refine ⟨fun h => ?_, fun h => ?_, fun old h hne => ?_⟩
  · simp [insert, recordRepeat, hk, h]
  · simp [insert, recordRepeat, hk, h]
  · simp [insert, recordRepeat, hk, h, hne]

/-- Witness for C1: concrete instances of all three insert outcomes. -/
theorem insert_classifies_witness :
    insert kfLen [] "ab" = .ok (none, [([2], "ab")]) ∧
    insert kfLen [([2], "ab")] "ab" = .ok (some none, [([2], "ab")]) ∧
    insert kfLen [([2], "xy")] "ab" = .ok (some (some "xy"), [([2], "ab")]) :=
  ⟨((insert_classifies kfLen [] "ab" [2] rfl).1 rfl).1,
   ((insert_classifies kfLen [([2], "ab")] "ab" [2] rfl).2.1 rfl).1,
   ((insert_classifies kfLen [([2], "xy")] "ab" [2] rfl).2.2 ("xy") rfl
     (by decide)).1⟩

/-- C6: inserting a line and then re-inserting the byte-identical line never
produces a collision: the second insert returns `some none`, recorded as a
repeat with `replacement = none`, which is not a collision. -/
theorem insert_reinsert_duplicate {F : Type} (keyFn : String → Except F Key)
    (store : Store) (line : String) (key : Key) (hk : keyFn line = .ok key)
    (r : Option (Option String)) (store' : Store)
    (h1 : insert keyFn store line = .ok (r, store')) :
    insert keyFn store' line = .ok (some none, store') ∧
    ∀ p n, (recordRepeat p n line (some none)).map Repeat.is_collision = some false := by
  have hstore' : store' = storePut store key line := by
    simp [insert, hk] at h1
    exact h1.2.symm
  subst hstore'
  constructor
  · simp [insert, hk, assocLookup_storePut_self, storePut_storePut_self]
  · intro p n
    simp [recordRepeat, Repeat.is_collision]

/-- Witness for C6: re-inserting `"ab"` into the store it was just inserted
into yields the present-same outcome. -/
theorem insert_reinsert_duplicate_witness :
    insert kfLen [([2], "ab")] "ab" = .ok (some none, [([2], "ab")]) ∧
    ∀ p n, (recordRepeat p n ("ab") (some none)).map Repeat.is_collision = some false :=
  insert_reinsert_duplicate kfLen [] "ab" [2] rfl none [([2], "ab")] rfl

/-- C7: `duplicate_count` counts exactly the repeats whose `replacement` is
`none` and `collision_count` those whose `replacement` is `some`; on a report
with three duplicate repeats and two collision repeats the counts are 3
and 2. -/
theorem run_report_counts (repeats : List Repeat) (wr : WriteReport) :
    (RunReport.mk repeats wr).duplicate_count =
      repeats.countP (fun x => x.replacement.isNone) ∧
    (RunReport.mk repeats wr).collision_count =
      repeats.countP (fun x => x.replacement.isSome) ∧
    (RunReport.mk repeatsExample wr).duplicate_count = 3 ∧
    (RunReport.mk repeatsExample wr).collision_count = 2 := by
  refine ⟨?_, ?_, ?_, ?_⟩
  · rw [RunReport.duplicate_count, List.countP_eq_length_filter]
    congr 1
    apply List.filter_congr
    intro x _
    simp [Repeat.is_collision]
  · rw [RunReport.collision_count, List.countP_eq_length_filter]
    rfl
  · rfl
  · rfl

unseal List.merge List.mergeSort in
/-- C3: `BySizeInterspersed` sorts the paths ascending by size, takes the
lower half of length `⌊n / 2⌋`, and outputs the lower half in ascending
order followed by the upper half reversed; on sizes `[1,2,3,4,5,6]` the
output size order is `[1,2,3,6,5,4]`. -/
theorem sort_paths_bySizeInterspersed {P : Type} (sizeFn : P → Nat)
    (paths : List P) :
    (∃ sorted : List (Nat × P),
      sorted.Perm (paths.map fun p => (sizeFn p, p)) ∧
      sorted.Pairwise (fun a b => a.1 ≤ b.1) ∧
      sorted.length = paths.length ∧
      sortPathsBySizeInterspersed sizeFn paths =
        (sorted.take (paths.length / 2)).map Prod.snd ++
          ((sorted.drop (paths.length / 2)).reverse).map Prod.snd) ∧
    sortPathsBySizeInterspersed (fun n : Nat => n) [1, 2, 3, 4, 5, 6] =
      [1, 2, 3, 6, 5, 4] := by
  constructor
  · refine ⟨(paths.map fun p => (sizeFn p, p)).mergeSort (fun a b => a.1 ≤ b.1),
      List.mergeSort_perm _ _, ?_, ?_, ?_⟩
    · have h := @List.sorted_mergeSort (Nat × P)
        (fun a b => decide (a.1 ≤ b.1))
        (fun a b c hab hbc => by
          simp only [decide_eq_true_eq] at *
          omega)
        (fun a b => by simpa using Nat.le_total a.1 b.1)
        (paths.map fun p => (sizeFn p, p))
      exact h.imp fun hab => by simpa using hab
    · rw [List.length_mergeSort, List.length_map]
    · have hlen : ((paths.map fun p => (sizeFn p, p)).mergeSort
          fun a b => a.1 ≤ b.1).length = paths.length := by
        rw [List.length_mergeSort, List.length_map]
      rw [sortPathsBySizeInterspersed, List.map_append, hlen]
  · decide

theorem splitAtLastDot_eq (cs : List Char) :
    ∀ b a, splitAtLastDot cs = some (b, a) → cs = b ++ '.' :: a := by
  induction cs with
  | nil => intro b a h; simp [splitAtLastDot] at h
  | cons c rest ih =>
    intro b a h
    rw [splitAtLastDot] at h
    cases hsplit : splitAtLastDot rest with
    | some p =>
      obtain ⟨b', a'⟩ := p
      rw [hsplit] at h
      injection h with h2
      injection h2 with hb ha
      subst hb
      subst ha
      simp [ih b' a' hsplit]
    | none =>
      rw [hsplit] at h
      by_cases hc : c = '.'
      · rw [if_pos hc] at h
        injection h with h2
        injection h2 with hb ha
        subst hb
        subst ha
        simp [hc]
      · rw [if_neg hc] at h
        exact absurd h (by simp)

theorem zstOutputName_eq_append (q : RPath) (h : rustExtension q ≠ some []) :
    zstOutputName q = q ++ '.' :: zstdSuffix := by
  rw [zstOutputName, rustExtension, rustSetExtension]
  cases hsplit : splitAtLastDot q with
  | none => simp
  | some p =>
    obtain ⟨b, a⟩ := p
    have hq := splitAtLastDot_eq q b a hsplit
    by_cases hb : b = []
    · simp [hb]
    · rw [rustExtension, hsplit] at h
      simp only [if_neg hb, Option.getD_some, Option.some.injEq] at h ⊢
      have ha : a ≠ [] := fun hha => h (congrArg some hha)
      simp only [ha, ne_eq, not_false_iff, if_true]
      subst hq
      simp [zstdSuffix]

/-- C9: when write-back opens the output for a fresh path, a given
compression level routes the output through the streaming compressor under
the name obtained by appending the zstd suffix to the existing extension
(`a.txt` becomes `a.txt.zst`, extension-less `a` becomes `a.zst`), while
without compression the value is written directly, followed by a trailing
line terminator, under the unmodified path. -/
theorem write_output_naming {F : Type} (pathFn : Key → Except F RPath)
    (level : Nat) (st : WriteState) (key : Key) (value : String)
    (path : RPath) (hp : pathFn key = .ok path)
    (hnew : some path ≠ st.last_path)
    (hfresh : assocLookup st.file_counts path = none) :
    writeStep pathFn (some level) st (key, value) = .ok
      { file_counts := countsBump (st.file_counts ++ [(path, 0)]) path
        last_path := some path
        writer := some { name := zstOutputName path, compressed := true,
                         written := [writelnStr value] }
        closed := st.closed ++ st.writer.toList } ∧
    writeStep pathFn none st (key, value) = .ok
      { file_counts := countsBump (st.file_counts ++ [(path, 0)]) path
        last_path := some path
        writer := some { name := path, compressed := false,
                         written := [writelnStr value] }
        closed := st.closed ++ st.writer.toList } ∧
    (∀ q : RPath, rustExtension q ≠ some [] →
      zstOutputName q = q ++ '.' :: zstdSuffix) ∧
    zstOutputName ("a.txt".toList) = "a.txt.zst".toList ∧
    zstOutputName ("a".toList) = "a.zst".toList ∧
    writelnStr value = value ++ "\n" := by
  refine ⟨?_, ?_, zstOutputName_eq_append, by decide, by decide, rfl⟩
  · simp [writeStep, hp, hnew, hfresh, openWriter]
  · simp [writeStep, hp, hnew, hfresh, openWriter]

/-- Witness for C9: the first record of a compressed write-back goes to
`a.zst` and the first record of an uncompressed one to `a` itself. -/
theorem write_output_naming_witness :
    writeStep pfLetter (some 3) initWriteState ([0], "x") = .ok
      { file_counts := [(['a'], 1)]
        last_path := some ['a']
        writer := some { name := ['a', '.', 'z', 's', 't'], compressed := true,
                         written := ["x\n"] }
        closed := [] } ∧
    writeStep pfLetter none initWriteState ([0], "x") = .ok
      { file_counts := [(['a'], 1)]
        last_path := some ['a']
        writer := some { name := ['a'], compressed := false,
                         written := ["x\n"] }
        closed := [] } := by
  have h := write_output_naming pfLetter 3 initWriteState [0] "x" ['a']
    (by decide) (by decide) (by decide)
  exact ⟨h.1, h.2.1⟩

/-- A file system with a regular file at the extension-less path `data`. -/
def fsNoExt : String → Option FileEntry := fun p =>
  if p = "data" then
    some { openError := none, zstInitError := none, gzItems := [],
           zstItems := [], plainItems := [.ok ("hello")] }
  else none

/-- A file system with a plain-text file at `d.txt` whose second read fails. -/
def fsTxt : String → Option FileEntry := fun p =>
  if p = "d.txt" then
    some { openError := none, zstInitError := none, gzItems := [],
           zstItems := [], plainItems := [.ok ("l1"), .error 7, .ok ("l3")] }
  else none

/-- C8 counterexample: `data` names a regular file, yet the line source does
not fall back to plain text — it fails with `InvalidPath`, because the path
has no extension. -/
theorem lines_extensionless_file_fails :
    (fsNoExt ("data")).isSome = true ∧
    linesFn fsNoExt ("data") = .error (.invalidPath ("data")) := by decide

/-- C8 (amended): for a path naming a regular file whose name has an
extension, once the file opens (and, for zstd, the decoder initialises), the
line source succeeds, choosing the gzip or zstd decompressing reader by
lower-cased extension and treating any other extension as plain text; the
yielded items are numbered from 1 in increments of 1, and a mid-stream read
failure carries the originating path and its line number. -/
theorem lines_spec_amended (fs : String → Option FileEntry) (path : String)
    (entry : FileEntry) (hfs : fs path = some entry) (ext : List Char)
    (hext : rustExtension path.toList = some ext)
    (hopen : entry.openError = none)
    (hzst : ext.map Char.toLower = ['z', 's', 't'] → entry.zstInitError = none) :
    ∃ items : List (Except Nat String),
      linesFn fs path = .ok (lineReaderItems path items) ∧
      (ext.map Char.toLower = ['g', 'z'] → items = entry.gzItems) ∧
      (ext.map Char.toLower = ['z', 's', 't'] → items = entry.zstItems) ∧
      (ext.map Char.toLower ≠ ['g', 'z'] → ext.map Char.toLower ≠ ['z', 's', 't'] →
        items = entry.plainItems) ∧
      ∀ (i : Nat) (x : Except LinesError (Nat × String)),
        (lineReaderItems path items)[i]? = some x →
        (∃ v, x = .ok (i + 1, v)) ∨
        (∃ e, x = .error (.line { path := path, line_number := i + 1 } e)) := by
  have hgo : ∀ (items : List (Except Nat String)) (n i : Nat)
      (x : Except LinesError (Nat × String)),
      (lineReaderGo path n items)[i]? = some x →
      (∃ v, x = .ok (n + i + 1, v)) ∨
      (∃ e, x = .error (.line { path := path, line_number := n + i + 1 } e)) := by
    intro items
    induction items with
    | nil => intro n i x hx; simp [lineReaderGo] at hx
    | cons head rest ih =>
      intro n i x hx
      rw [lineReaderGo.eq_def] at hx
      cases i with
      | zero =>
        simp only [List.getElem?_cons_zero, Option.some.injEq] at hx
        subst hx
        cases head with
        | ok line => exact .inl ⟨line, rfl⟩
        | error e => exact .inr ⟨e, rfl⟩
      | succ j =>
        simp only [List.getElem?_cons_succ] at hx
        have harith : n + 1 + j + 1 = n + (j + 1) + 1 := by omega
        have := ih (n + 1) j x hx
        rw [harith] at this
        exact this
  have hnum : ∀ items : List (Except Nat String),
      ∀ (i : Nat) (x : Except LinesError (Nat × String)),
      (lineReaderItems path items)[i]? = some x →
      (∃ v, x = .ok (i + 1, v)) ∨
      (∃ e, x = .error (.line { path := path, line_number := i + 1 } e)) := by
    intro items i x hx
    have := hgo items 0 i x hx
    rw [Nat.zero_add] at this
    exact this
  have hext' : rustExtension path.data = some ext := hext
  by_cases hgz : ext.map Char.toLower = ['g', 'z']
  · refine ⟨entry.gzItems, ?_, fun _ => rfl, fun hz => absurd (hgz.symm.trans hz) (by decide),
      fun hn _ => absurd hgz hn, hnum entry.gzItems⟩
    simp [linesFn, hfs, hext', hopen, hgz]
  · by_cases hzs : ext.map Char.toLower = ['z', 's', 't']
    · refine ⟨entry.zstItems, ?_, fun hg => absurd (hzs.symm.trans hg) (by decide),
        fun _ => rfl, fun _ hn => absurd hzs hn, hnum entry.zstItems⟩
      simp [linesFn, hfs, hext', hopen, hgz, hzs, hzst hzs]
    · refine ⟨entry.plainItems, ?_, fun hg => absurd hg hgz, fun hz => absurd hz hzs,
        fun _ _ => rfl, hnum entry.plainItems⟩
      simp [linesFn, hfs, hext', hopen, hgz, hzs]

/-- Witness for C8 (amended): the plain-text file at `d.txt` streams
successfully through a `LineReader`. -/
theorem lines_spec_amended_witness :
    ∃ items : List (Except Nat String),
      linesFn fsTxt ("d.txt") = .ok (lineReaderItems ("d.txt") items) :=
  (lines_spec_amended fsTxt ("d.txt")
    { openError := none, zstInitError := none, gzItems := [], zstItems := [],
      plainItems := [.ok ("l1"), .error 7, .ok ("l3")] }
    (by decide) ['t', 'x', 't'] (by decide) rfl (by decide)).elim
    fun items h => ⟨items, h.1⟩

/-! ### Write-back invariants and counting -/

theorem assocLookup_append {α β : Type} [DecidableEq α] (l l' : List (α × β))
    (p : α) :
    assocLookup (l ++ l') p =
      match assocLookup l p with
      | some v => some v
      | none => assocLookup l' p := by
  induction l with
  | nil => simp [assocLookup]
  | cons head rest ih =>
    obtain ⟨a, b⟩ := head
    by_cases h : a = p <;> simp [assocLookup, h, ih]

theorem assocLookup_countsBump_isSome (l : List (RPath × Nat)) (p q : RPath) :
    (assocLookup (countsBump l p) q).isSome = (assocLookup l q).isSome := by
  induction l with
  | nil => simp [countsBump]
  | cons head rest ih =>
    obtain ⟨a, n⟩ := head
    rw [countsBump]
    by_cases hap : a = p
    · rw [if_pos hap]
      rw [assocLookup, assocLookup]
      by_cases haq : a = q
      · rw [if_pos haq, if_pos haq]
        rfl
      · rw [if_neg haq, if_neg haq]
    · rw [if_neg hap]
      rw [assocLookup, assocLookup]
      by_cases haq : a = q
      · rw [if_pos haq, if_pos haq]
      · rw [if_neg haq, if_neg haq]
        exact ih

/-- Total line count tallied so far (`WriteReport::line_count` of the counts). -/
def countsTotal (l : List (RPath × Nat)) : Nat := (l.map Prod.snd).sum

/-- Total number of lines written across all output files so far. -/
def writtenTotal (st : WriteState) : Nat :=
  ((st.closed ++ st.writer.toList).map fun w => w.written.length).sum

theorem countsTotal_append (l l' : List (RPath × Nat)) :
    countsTotal (l ++ l') = countsTotal l + countsTotal l' := by
  simp [countsTotal]

theorem countsTotal_countsBump (l : List (RPath × Nat)) (p : RPath)
    (h : (assocLookup l p).isSome = true) :
    countsTotal (countsBump l p) = countsTotal l + 1 := by
  induction l with
  | nil => simp [assocLookup] at h
  | cons head rest ih =>
    obtain ⟨a, n⟩ := head
    by_cases hap : a = p
    · simp [countsBump, hap, countsTotal]
      omega
    · simp [assocLookup, hap] at h
      simp [countsBump, hap, countsTotal] at ih ⊢
      rw [ih h]
      omega

/-- The internal invariant of the write-back loop: when a previous path
exists, its count entry is present and a writer is open. -/
def WriteInv (st : WriteState) : Prop :=
  ∀ p, st.last_path = some p →
    (assocLookup st.file_counts p).isSome = true ∧ st.writer.isSome = true

theorem writeStep_format_eq {F : Type} (pathFn : Key → Except F RPath)
    (compression : Option Nat) (st : WriteState) (r : Key × String)
    (f : F) (hp : pathFn r.1 = .error f) :
    writeStep pathFn compression st r = .error (.format f) := by
  simp [writeStep, hp]

theorem writeStep_new_eq {F : Type} (pathFn : Key → Except F RPath)
    (compression : Option Nat) (st : WriteState) (r : Key × String)
    (path : RPath) (hp : pathFn r.1 = .ok path)
    (hc : some path ≠ st.last_path)
    (hl : assocLookup st.file_counts path = none) :
    writeStep pathFn compression st r = .ok
      { file_counts := countsBump (st.file_counts ++ [(path, 0)]) path
        last_path := some path
        writer := some { openWriter compression path with
                         written := (openWriter compression path).written ++ [writelnStr r.2] }
        closed := st.closed ++ st.writer.toList } := by
  simp [writeStep, hp, hc, hl]

theorem writeStep_reappear_eq {F : Type} (pathFn : Key → Except F RPath)
    (compression : Option Nat) (st : WriteState) (r : Key × String)
    (path : RPath) (n : Nat) (hp : pathFn r.1 = .ok path)
    (hc : some path ≠ st.last_path)
    (hl : assocLookup st.file_counts path = some n) :
    writeStep pathFn compression st r = .error (.invalidPath path r.1) := by
  simp [writeStep, hp, hc, hl]

theorem writeStep_same_eq {F : Type} (pathFn : Key → Except F RPath)
    (compression : Option Nat) (st : WriteState) (r : Key × String)
    (path : RPath) (n : Nat) (w : Writer) (hp : pathFn r.1 = .ok path)
    (hlast : st.last_path = some path)
    (hl : assocLookup st.file_counts path = some n)
    (hw : st.writer = some w) :
    writeStep pathFn compression st r = .ok
      { st with file_counts := countsBump st.file_counts path
                writer := some { w with written := w.written ++ [writelnStr r.2] } } := by
  simp [writeStep, hp, hlast, hl, hw]

theorem writeStep_same_nolookup_eq {F : Type} (pathFn : Key → Except F RPath)
    (compression : Option Nat) (st : WriteState) (r : Key × String)
    (path : RPath) (hp : pathFn r.1 = .ok path)
    (hlast : st.last_path = some path)
    (hl : assocLookup st.file_counts path = none) :
    writeStep pathFn compression st r = .error .invalidState := by
  simp [writeStep, hp, hlast, hl]

theorem writeStep_same_nowriter_eq {F : Type} (pathFn : Key → Except F RPath)
    (compression : Option Nat) (st : WriteState) (r : Key × String)
    (path : RPath) (n : Nat) (hp : pathFn r.1 = .ok path)
    (hlast : st.last_path = some path)
    (hl : assocLookup st.file_counts path = some n)
    (hw : st.writer = none) :
    writeStep pathFn compression st r = .error .invalidState := by
  simp [writeStep, hp, hlast, hl, hw]

/-- Everything a successful `writeStep` guarantees: the derived path becomes
the last path with a present count and an open writer, counted-path presence
is preserved, and exactly one line is added to both tallies. -/
theorem writeStep_ok {F : Type} (pathFn : Key → Except F RPath)
    (compression : Option Nat) (st st' : WriteState) (r : Key × String)
    (h : writeStep pathFn compression st r = .ok st') :
    ∃ path, pathFn r.1 = .ok path ∧
      st'.last_path = some path ∧
      (assocLookup st'.file_counts path).isSome = true ∧
      st'.writer.isSome = true ∧
      (∀ q, (assocLookup st.file_counts q).isSome = true →
        (assocLookup st'.file_counts q).isSome = true) ∧
      countsTotal st'.file_counts = countsTotal st.file_counts + 1 ∧
      writtenTotal st' = writtenTotal st + 1 := by
  cases hp : pathFn r.1 with
  | error f =>
    rw [writeStep_format_eq pathFn compression st r f hp] at h
    simp at h
  | ok path =>
    refine ⟨path, rfl, ?_⟩
    by_cases hc : some path ≠ st.last_path
    · cases hl : assocLookup st.file_counts path with
      | some n =>
        rw [writeStep_reappear_eq pathFn compression st r path n hp hc hl] at h
        simp at h
      | none =>
        rw [writeStep_new_eq pathFn compression st r path hp hc hl] at h
        simp only [Except.ok.injEq] at h
        subst h
        have hget : assocLookup (st.file_counts ++ [(path, 0)]) path = some 0 := by
          rw [assocLookup_append, hl]
          simp [assocLookup]
        refine ⟨rfl, ?_, rfl, ?_, ?_, ?_⟩
        · rw [assocLookup_countsBump_isSome, hget]
          rfl
        · intro q hq
          rw [assocLookup_countsBump_isSome, assocLookup_append]
          cases hlq : assocLookup st.file_counts q with
          | some v => rfl
          | none => rw [hlq] at hq; cases hq
        · rw [countsTotal_countsBump _ _ (by rw [hget]; rfl), countsTotal_append]
          simp [countsTotal]
        · rw [writtenTotal, writtenTotal]
          cases compression <;> simp [openWriter] <;> omega
    · have hlast : st.last_path = some path := by
        by_contra hne
        exact hc fun heq => hne heq.symm
      cases hl : assocLookup st.file_counts path with
      | none =>
        rw [writeStep_same_nolookup_eq pathFn compression st r path hp hlast hl] at h
        simp at h
      | some n =>
        cases hw : st.writer with
        | none =>
          rw [writeStep_same_nowriter_eq pathFn compression st r path n hp hlast hl hw] at h
          simp at h
        | some w =>
          rw [writeStep_same_eq pathFn compression st r path n w hp hlast hl hw] at h
          simp only [Except.ok.injEq] at h
          subst h
          refine ⟨hlast, ?_, rfl, ?_, ?_, ?_⟩
          · rw [assocLookup_countsBump_isSome, hl]
            rfl
          · intro q hq
            rw [assocLookup_countsBump_isSome]
            exact hq
          · exact countsTotal_countsBump _ _ (by rw [hl]; rfl)
          · rw [writtenTotal, writtenTotal, hw]
            simp
            omega

/-- A failing `writeStep` from an invariant-respecting state is a format
error or an `InvalidPath` error, never `InvalidState`. -/
theorem writeStep_error_shape {F : Type} (pathFn : Key → Except F RPath)
    (compression : Option Nat) (st : WriteState) (r : Key × String)
    (e : DbError F) (hinv : WriteInv st)
    (h : writeStep pathFn compression st r = .error e) :
    (∃ f, e = .format f ∧ pathFn r.1 = .error f) ∨ ∃ p k, e = .invalidPath p k := by
  cases hp : pathFn r.1 with
  | error f =>
    rw [writeStep_format_eq pathFn compression st r f hp] at h
    refine .inl ⟨f, (Except.error.inj h).symm, rfl⟩
  | ok path =>
    by_cases hc : some path ≠ st.last_path
    · cases hl : assocLookup st.file_counts path with
      | some n =>
        rw [writeStep_reappear_eq pathFn compression st r path n hp hc hl] at h
        simp only [Except.error.injEq] at h
        exact .inr ⟨path, r.1, h.symm⟩
      | none =>
        rw [writeStep_new_eq pathFn compression st r path hp hc hl] at h
        simp at h
    · have hlast : st.last_path = some path := by
        by_contra hne
        exact hc fun heq => hne heq.symm
      obtain ⟨hcount, hwriter⟩ := hinv path hlast
      cases hl : assocLookup st.file_counts path with
      | none => rw [hl] at hcount; cases hcount
      | some n =>
        cases hw : st.writer with
        | none => rw [hw] at hwriter; cases hwriter
        | some w =>
          rw [writeStep_same_eq pathFn compression st r path n w hp hlast hl hw] at h
          simp at h

/-- A successful `writeStep` preserves the write-back invariant. -/
theorem writeStep_preserves_inv {F : Type} (pathFn : Key → Except F RPath)
    (compression : Option Nat) (st st' : WriteState) (r : Key × String)
    (h : writeStep pathFn compression st r = .ok st') :
    WriteInv st' := by
  obtain ⟨path, _, hlast, hcount, hwriter, _, _, _⟩ :=
    writeStep_ok pathFn compression st st' r h
  intro p hp
  rw [hlast] at hp
  cases hp
  exact ⟨hcount, hwriter⟩

theorem initWriteState_inv : WriteInv initWriteState := by
  intro p hp
  simp [initWriteState] at hp

theorem writeGo_no_invalidState {F : Type} (pathFn : Key → Except F RPath)
    (compression : Option Nat) :
    ∀ (recs : List (Key × String)) (st : WriteState), WriteInv st →
      isInvalidStateErr (writeGo pathFn compression st recs) = false := by
  intro recs
  induction recs with
  | nil => intro st _; rfl
  | cons r rest ih =>
    intro st hinv
    rw [writeGo]
    cases hstep : writeStep pathFn compression st r with
    | error e =>
      rcases writeStep_error_shape pathFn compression st r e hinv hstep with
        ⟨f, rfl, _⟩ | ⟨p, k, rfl⟩ <;> rfl
    | ok st' =>
      exact ih st' (writeStep_preserves_inv pathFn compression st st' r hstep)

theorem writeGo_counts {F : Type} (pathFn : Key → Except F RPath)
    (compression : Option Nat) :
    ∀ (recs : List (Key × String)) (st st' : WriteState),
      writeGo pathFn compression st recs = .ok st' →
      countsTotal st'.file_counts = countsTotal st.file_counts + recs.length ∧
      writtenTotal st' = writtenTotal st + recs.length := by
  intro recs
  induction recs with
  | nil =>
    intro st st' h
    have h' : (Except.ok st : Except (DbError F) WriteState) = Except.ok st' := h
    cases Except.ok.inj h'
    simp
  | cons r rest ih =>
    intro st st' h
    rw [writeGo] at h
    cases hstep : writeStep pathFn compression st r with
    | error e =>
      rw [hstep] at h
      exact Except.noConfusion h
    | ok st1 =>
      rw [hstep] at h
      have h' : writeGo pathFn compression st1 rest = .ok st' := h
      obtain ⟨hc, hw⟩ := ih st1 st' h'
      obtain ⟨path, _, _, _, _, _, hct, hwt⟩ :=
        writeStep_ok pathFn compression st st1 r hstep
      refine ⟨?_, ?_⟩ <;> simp only [List.length_cons] <;> omega

/-- C10: the defensive `InvalidState` branches of write-back are unreachable:
whatever the path function, the compression setting and the scanned records,
the loop invariant (a previous path always has a count entry and an open
writer) holds at every iteration, so the run never returns `InvalidState`. -/
theorem write_invalidState_unreachable {F : Type} (pathFn : Key → Except F RPath)
    (compression : Option Nat) (records : List (Key × String)) :
    isInvalidStateErr (writeBack pathFn compression records) = false := by
  rw [writeBack]
  cases hgo : writeGo pathFn compression initWriteState records with
  | error e =>
    have hns := writeGo_no_invalidState pathFn compression records
      initWriteState initWriteState_inv
    rw [hgo] at hns
    cases e with
    | invalidState => simp [isInvalidStateErr] at hns
    | format f => rfl
    | io code => rfl
    | utf8 => rfl
    | db => rfl
    | invalidPath p k => rfl
  | ok st => rfl

/-- C4: when write-back succeeds, each scanned record lands in exactly one
output file and bumps exactly one per-path count, so the report's
`line_count` and the total number of lines across the produced output files
both equal the number of records in the store scan — the store's count of
distinct keys. -/
theorem write_success_line_count {F : Type} (pathFn : Key → Except F RPath)
    (compression : Option Nat) (records : List (Key × String))
    (_hkeys : (records.map Prod.fst).Nodup)
    (report : WriteReport) (outputs : List Writer)
    (hok : writeBack pathFn compression records = .ok (report, outputs)) :
    report.line_count = storeCount records ∧
    (outputs.map fun w => w.written.length).sum = storeCount records := by
  rw [writeBack] at hok
  cases hgo : writeGo pathFn compression initWriteState records with
  | error e =>
    rw [hgo] at hok
    exact Except.noConfusion hok
  | ok st =>
    rw [hgo] at hok
    have hok' : (({ file_counts := st.file_counts } : WriteReport),
        st.closed ++ st.writer.toList) = (report, outputs) := Except.ok.inj hok
    obtain ⟨hr, ho⟩ := Prod.mk.injEq .. |>.mp hok'
    subst hr
    subst ho
    obtain ⟨hc, hw⟩ := writeGo_counts pathFn compression records initWriteState st hgo
    constructor
    · rw [WriteReport.line_count]
      have : countsTotal st.file_counts = records.length := by
        rw [hc]
        simp [initWriteState, countsTotal]
      exact this
    · have : writtenTotal st = records.length := by
        rw [hw]
        simp [initWriteState, writtenTotal]
      exact this

/-- Witness for C4: a two-record scan with distinct keys reports two lines
across two files, and two lines are on disk. -/
theorem write_success_line_count_witness :
    ({ file_counts := [(['a'], 1), (['b'], 1)] } : WriteReport).line_count =
      storeCount [([0], "x"), ([1], "y")] ∧
    (([{ name := ['a'], compressed := false, written := ["x\n"] },
       { name := ['b'], compressed := false, written := ["y\n"] }] :
        List Writer).map fun w => w.written.length).sum =
      storeCount [([0], "x"), ([1], "y")] :=
  write_success_line_count pfLetter none [([0], "x"), ([1], "y")]
    (by decide) _ _ (by decide)

theorem writeGo_append {F : Type} (pathFn : Key → Except F RPath)
    (compression : Option Nat) :
    ∀ (xs ys : List (Key × String)) (st : WriteState),
      writeGo pathFn compression st (xs ++ ys) =
        match writeGo pathFn compression st xs with
        | .error e => .error e
        | .ok st' => writeGo pathFn compression st' ys := by
  intro xs
  induction xs with
  | nil => intro ys st; rfl
  | cons r rest ih =>
    intro ys st
    rw [List.cons_append, writeGo, writeGo]
    cases hstep : writeStep pathFn compression st r with
    | error e => rfl
    | ok st1 => exact ih ys st1

theorem writeGo_append_ok {F : Type} (pathFn : Key → Except F RPath)
    (compression : Option Nat) (xs ys : List (Key × String))
    (st st' : WriteState)
    (h : writeGo pathFn compression st (xs ++ ys) = .ok st') :
    ∃ stm, writeGo pathFn compression st xs = .ok stm ∧
      writeGo pathFn compression stm ys = .ok st' := by
  rw [writeGo_append] at h
  cases hxs : writeGo pathFn compression st xs with
  | error e => rw [hxs] at h; exact Except.noConfusion h
  | ok stm => rw [hxs] at h; exact ⟨stm, rfl, h⟩

theorem writeGo_cons_ok {F : Type} (pathFn : Key → Except F RPath)
    (compression : Option Nat) (r : Key × String) (recs : List (Key × String))
    (st st' : WriteState)
    (h : writeGo pathFn compression st (r :: recs) = .ok st') :
    ∃ stm, writeStep pathFn compression st r = .ok stm ∧
      writeGo pathFn compression stm recs = .ok st' := by
  rw [writeGo] at h
  cases hstep : writeStep pathFn compression st r with
  | error e => rw [hstep] at h; exact Except.noConfusion h
  | ok stm => rw [hstep] at h; exact ⟨stm, rfl, h⟩

theorem writeGo_mono {F : Type} (pathFn : Key → Except F RPath)
    (compression : Option Nat) :
    ∀ (recs : List (Key × String)) (st st' : WriteState),
      writeGo pathFn compression st recs = .ok st' →
      ∀ q, (assocLookup st.file_counts q).isSome = true →
        (assocLookup st'.file_counts q).isSome = true := by
  intro recs
  induction recs with
  | nil =>
    intro st st' h q hq
    have h' : (Except.ok st : Except (DbError F) WriteState) = Except.ok st' := h
    cases Except.ok.inj h'
    exact hq
  | cons r rest ih =>
    intro st st' h q hq
    obtain ⟨stm, hstep, hrest⟩ := writeGo_cons_ok pathFn compression r rest st st' h
    obtain ⟨path, _, _, _, _, hmono, _, _⟩ :=
      writeStep_ok pathFn compression st stm r hstep
    exact ih stm st' hrest q (hmono q hq)

/-- Once a path's count entry exists and the path is not the current one, a
successful continuation of the scan never derives that path again. -/
theorem writeGo_ok_no_reappear {F : Type} (pathFn : Key → Except F RPath)
    (compression : Option Nat) :
    ∀ (recs : List (Key × String)) (st st' : WriteState) (p : RPath),
      writeGo pathFn compression st recs = .ok st' →
      (assocLookup st.file_counts p).isSome = true →
      st.last_path ≠ some p →
      ∀ r ∈ recs, pathFn r.1 ≠ .ok p := by
  intro recs
  induction recs with
  | nil => intro st st' p _ _ _ r hr; cases hr
  | cons r0 rest ih =>
    intro st st' p h hmem hlast r hr
    obtain ⟨st1, hstep, hrest⟩ := writeGo_cons_ok pathFn compression r0 rest st st' h
    obtain ⟨path, hp0, hlast1, _, _, hmono, _, _⟩ :=
      writeStep_ok pathFn compression st st1 r0 hstep
    obtain ⟨n, hn⟩ := Option.isSome_iff_exists.mp hmem
    have hpne : path ≠ p := by
      intro hpp
      subst hpp
      rw [writeStep_reappear_eq pathFn compression st r0 path n hp0
        (fun hh => hlast hh.symm) hn] at hstep
      exact Except.noConfusion hstep
    cases hr with
    | head =>
      intro hcon
      rw [hp0] at hcon
      exact hpne (Except.ok.inj hcon)
    | tail _ hr' =>
      refine ih st1 st' p hrest (hmono p hmem) ?_ r hr'
      rw [hlast1]
      intro hh
      exact hpne (Option.some.inj hh)

/-- A failing scan from an invariant-respecting state fails with a format
error traceable to some record, or with `InvalidPath`. -/
theorem writeGo_error_shape {F : Type} (pathFn : Key → Except F RPath)
    (compression : Option Nat) :
    ∀ (recs : List (Key × String)) (st : WriteState) (e : DbError F),
      WriteInv st → writeGo pathFn compression st recs = .error e →
      (∃ f, e = .format f ∧ ∃ r, r ∈ recs ∧ pathFn r.1 = .error f) ∨
      ∃ p k, e = .invalidPath p k := by
  intro recs
  induction recs with
  | nil =>
    intro st e _ h
    exact Except.noConfusion h
  | cons r0 rest ih =>
    intro st e hinv h
    rw [writeGo] at h
    cases hstep : writeStep pathFn compression st r0 with
    | error e0 =>
      rw [hstep] at h
      have h' : (Except.error e0 : Except (DbError F) WriteState) = Except.error e := h
      cases Except.error.inj h'
      rcases writeStep_error_shape pathFn compression st r0 e hinv hstep with
        ⟨f, rfl, hpf⟩ | hip
      · exact .inl ⟨f, rfl, r0, List.mem_cons_self r0 rest, hpf⟩
      · exact .inr hip
    | ok st1 =>
      rw [hstep] at h
      have h' : writeGo pathFn compression st1 rest = .error e := h
      rcases ih st1 e (writeStep_preserves_inv pathFn compression st st1 r0 hstep) h' with
        ⟨f, rfl, r, hrmem, hpf⟩ | hip
      · exact .inl ⟨f, rfl, r, List.mem_cons_of_mem r0 hrmem, hpf⟩
      · exact .inr hip

/-- C2: if the ordered scan derives some path for a record, a different path
for a later record, and the first path again for a yet later record, and
path derivation succeeds for every scanned record, then write-back fails
with `InvalidPath`: a closed output path never silently reappears. -/
theorem write_reappearing_path_fails {F : Type} (pathFn : Key → Except F RPath)
    (compression : Option Nat)
    (A B C D : List (Key × String)) (ri rj rk : Key × String) (p q : RPath)
    (hp : pathFn ri.1 = .ok p) (hq : pathFn rj.1 = .ok q)
    (hp2 : pathFn rk.1 = .ok p) (hne : q ≠ p)
    (hall : ∀ r ∈ A ++ ri :: B ++ rj :: C ++ rk :: D, (pathFn r.1).isOk = true) :
    ∃ p' k', writeBack pathFn compression (A ++ ri :: B ++ rj :: C ++ rk :: D) =
      .error (.invalidPath p' k') := by
  have hsplit : A ++ ri :: B ++ rj :: C ++ rk :: D =
      ((A ++ ri :: B) ++ rj :: []) ++ (C ++ rk :: D) := by
    simp
  cases hres : writeGo pathFn compression initWriteState
      (A ++ ri :: B ++ rj :: C ++ rk :: D) with
  | ok stEnd =>
    exfalso
    rw [hsplit] at hres
    obtain ⟨st2, hpre, hpost⟩ := writeGo_append_ok pathFn compression _ _ _ _ hres
    obtain ⟨st1, hX, hj⟩ := writeGo_append_ok pathFn compression _ _ _ _ hpre
    obtain ⟨st2', hstepj, hnil⟩ := writeGo_cons_ok pathFn compression _ _ _ _ hj
    have hnil' : (Except.ok st2' : Except (DbError F) WriteState) = Except.ok st2 := hnil
    cases Except.ok.inj hnil'
    obtain ⟨sa, hA, hiB⟩ := writeGo_append_ok pathFn compression _ _ _ _ hX
    obtain ⟨sb, hstepi, hB⟩ := writeGo_cons_ok pathFn compression _ _ _ _ hiB
    obtain ⟨pi, hpi, _, hcnti, _, _, _, _⟩ :=
      writeStep_ok pathFn compression sa sb ri hstepi
    rw [hp] at hpi
    cases Except.ok.inj hpi
    have hst1 : (assocLookup st1.file_counts p).isSome = true :=
      writeGo_mono pathFn compression B sb st1 hB p hcnti
    obtain ⟨pj, hpj, hlastj, _, _, hmonoj, _, _⟩ :=
      writeStep_ok pathFn compression st1 st2 rj hstepj
    rw [hq] at hpj
    cases Except.ok.inj hpj
    have hst2 : (assocLookup st2.file_counts p).isSome = true := hmonoj p hst1
    have hlastne : st2.last_path ≠ some p := by
      rw [hlastj]
      intro hh
      exact hne (Option.some.inj hh)
    have hnore := writeGo_ok_no_reappear pathFn compression (C ++ rk :: D)
      st2 stEnd p hpost hst2 hlastne rk
      (List.mem_append_right C (List.mem_cons_self rk D))
    exact hnore hp2
  | error e =>
    rcases writeGo_error_shape pathFn compression _ initWriteState e
      initWriteState_inv hres with ⟨f, rfl, r, hrmem, hpf⟩ | ⟨p', k', rfl⟩
    · have := hall r hrmem
      rw [hpf] at this
      exact absurd this (by simp [Except.isOk, Except.toBool])
    · refine ⟨p', k', ?_⟩
      rw [writeBack, hres]

/-- Witness for C2: the three-record scan `a, b, a` fails with `InvalidPath`. -/
theorem write_reappearing_path_fails_witness :
    ∃ p' k', writeBack pfLetter none ([] ++ ([0], "x") :: [] ++ ([1], "y") :: [] ++ ([0], "z") :: []) =
      .error (.invalidPath p' k') :=
  write_reappearing_path_fails pfLetter none [] [] [] [] ([0], "x") ([1], "y")
    ([0], "z") ['a'] ['b'] rfl rfl rfl (by decide) (by decide)

/-! ### Ingestion cardinality (concurrent ingestion modelled by interleaving) -/

/-- The keys derivable from a file's lines. -/
def fileKeys {F : Type} (keyFn : String → Except F Key) (f : List String) :
    List Key :=
  f.filterMap fun l => (keyFn l).toOption

theorem dedup_length_eq_card {α : Type} [DecidableEq α] (l : List α) :
    l.dedup.length = l.toFinset.card := by
  rw [← List.toFinset_card_of_nodup l.nodup_dedup]
  congr 1
  apply List.toFinset.ext
  intro x
  exact List.mem_dedup

theorem storePut_keys (s : Store) (k : Key) (v : String) :
    ((storePut s k v).map Prod.fst).toFinset =
      Insert.insert k (s.map Prod.fst).toFinset ∧
    ((s.map Prod.fst).Nodup → ((storePut s k v).map Prod.fst).Nodup) := by
  induction s with
  | nil =>
    constructor
    · simp [storePut]
    · intro _
      simp [storePut]
  | cons head rest ih =>
    obtain ⟨k', v'⟩ := head
    by_cases hk : k' = k
    · constructor
      · simp [storePut, hk, List.toFinset_cons]
      · intro hnd
        simp only [List.map_cons, List.nodup_cons] at hnd
        have hput : storePut ((k', v') :: rest) k v = (k, v) :: rest := by
          simp [storePut, hk]
        rw [hput, List.map_cons, List.nodup_cons]
        rw [← hk]
        exact hnd
    · constructor
      · simp only [storePut, if_neg hk, List.map_cons, List.toFinset_cons, ih.1]
        apply Finset.Insert.comm
      · intro hnd
        simp only [List.map_cons, List.nodup_cons] at hnd
        obtain ⟨hknotin, hrest⟩ := hnd
        simp only [storePut, if_neg hk, List.map_cons, List.nodup_cons]
        refine ⟨?_, ih.2 hrest⟩
        intro hmem
        have hmem' : k' ∈ ((storePut rest k v).map Prod.fst).toFinset :=
          List.mem_toFinset.mpr hmem
        rw [ih.1] at hmem'
        rcases Finset.mem_insert.mp hmem' with h1 | h2
        · exact hk h1
        · exact hknotin (List.mem_toFinset.mp h2)

theorem ingest_ok_of_keys {F : Type} (keyFn : String → Except F Key) :
    ∀ (ls : List String) (store : Store),
      (∀ l ∈ ls, (keyFn l).isOk = true) →
      ∃ store', ingest keyFn store ls = .ok store' := by
  intro ls
  induction ls with
  | nil => intro store _; exact ⟨store, rfl⟩
  | cons l rest ih =>
    intro store hok
    have hl := hok l (List.mem_cons_self l rest)
    cases hkey : keyFn l with
    | error f => rw [hkey] at hl; exact absurd hl (by simp [Except.isOk, Except.toBool])
    | ok k =>
      obtain ⟨store', hrest⟩ :=
        ih (storePut store k l) fun x hx => hok x (List.mem_cons_of_mem l hx)
      refine ⟨store', ?_⟩
      rw [ingest]
      simp [insert, hkey]
      exact hrest

theorem ingest_keys {F : Type} (keyFn : String → Except F Key) :
    ∀ (ls : List String) (store store' : Store),
      ingest keyFn store ls = .ok store' →
      (∀ l ∈ ls, (keyFn l).isOk = true) →
      (store'.map Prod.fst).toFinset =
        (store.map Prod.fst).toFinset ∪ (fileKeys keyFn ls).toFinset ∧
      ((store.map Prod.fst).Nodup → (store'.map Prod.fst).Nodup) := by
  intro ls
  induction ls with
  | nil =>
    intro store store' h _
    have h' : (Except.ok store : Except (DbError F) Store) = Except.ok store' := h
    cases Except.ok.inj h'
    constructor
    · simp [fileKeys]
    · exact id
  | cons l rest ih =>
    intro store store' h hok
    have hl := hok l (List.mem_cons_self l rest)
    cases hkey : keyFn l with
    | error f => rw [hkey] at hl; exact absurd hl (by simp [Except.isOk, Except.toBool])
    | ok k =>
      rw [ingest] at h
      rw [show insert keyFn store l = .ok
          (match assocLookup store k with
           | some bytes => if bytes ≠ l then some (some bytes) else some none
           | none => none, storePut store k l) from by simp [insert, hkey]] at h
      have h' : ingest keyFn (storePut store k l) rest = .ok store' := h
      obtain ⟨hfin, hnd⟩ := ih (storePut store k l) store' h'
        fun x hx => hok x (List.mem_cons_of_mem l hx)
      constructor
      · rw [hfin, (storePut_keys store k l).1]
        have hfk : fileKeys keyFn (l :: rest) = k :: fileKeys keyFn rest := by
          simp only [fileKeys, List.filterMap_cons, hkey]
          rfl
        rw [hfk, List.toFinset_cons, Finset.insert_union, Finset.union_insert]
      · intro hbase
        exact hnd ((storePut_keys store k l).2 hbase)

theorem fileKeys_flatten_mem {F : Type} (keyFn : String → Except F Key) :
    ∀ (fs : List (List String)) (k : Key),
      k ∈ fileKeys keyFn fs.flatten → ∃ g, g ∈ fs ∧ k ∈ fileKeys keyFn g := by
  intro fs
  induction fs with
  | nil => intro k hk; simp [fileKeys] at hk
  | cons f rest ih =>
    intro k hk
    rw [List.flatten_cons] at hk
    rw [fileKeys, List.filterMap_append] at hk
    rcases List.mem_append.mp hk with h1 | h2
    · exact ⟨f, List.mem_cons_self f rest, h1⟩
    · obtain ⟨g, hg, hkg⟩ := ih k h2
      exact ⟨g, List.mem_cons_of_mem f hg, hkg⟩

theorem disjoint_files_card {F : Type} (keyFn : String → Except F Key) :
    ∀ (files : List (List String)),
      (files.Pairwise fun f g => ∀ k, k ∈ fileKeys keyFn f → k ∉ fileKeys keyFn g) →
      (fileKeys keyFn files.flatten).toFinset.card =
        (files.map fun f => (fileKeys keyFn f).toFinset.card).sum := by
  intro files
  induction files with
  | nil => intro _; simp [fileKeys]
  | cons f rest ih =>
    intro hpw
    rw [List.pairwise_cons] at hpw
    obtain ⟨hhead, htail⟩ := hpw
    rw [List.flatten_cons]
    have happ : fileKeys keyFn (f ++ rest.flatten) =
        fileKeys keyFn f ++ fileKeys keyFn rest.flatten := by
      simp [fileKeys]
    rw [happ, List.toFinset_append]
    rw [Finset.card_union_of_disjoint, ih htail, List.map_cons, List.sum_cons]
    rw [Finset.disjoint_left]
    intro k hkf hkj
    obtain ⟨g, hg, hkg⟩ := fileKeys_flatten_mem keyFn rest k (List.mem_toFinset.mp hkj)
    exact hhead g hg k (List.mem_toFinset.mp hkf) hkg

/-- C5: when the per-file key sets are pairwise disjoint, any interleaving of
the files' lines (any permutation seen by the shared store, one atomic
`insert` per line) ingests without loss: ingestion succeeds and the final
store holds exactly as many records as the sum of unique keys across the
files. -/
theorem ingest_disjoint_cardinality {F : Type} (keyFn : String → Except F Key)
    (files : List (List String)) (order : List String)
    (hperm : order.Perm files.flatten)
    (hok : ∀ l ∈ files.flatten, (keyFn l).isOk = true)
    (hdisj : files.Pairwise fun f g =>
      ∀ k, k ∈ fileKeys keyFn f → k ∉ fileKeys keyFn g) :
    ∃ store, ingest keyFn [] order = .ok store ∧
      storeCount store =
        (files.map fun f => (fileKeys keyFn f).dedup.length).sum := by
  have hok' : ∀ l ∈ order, (keyFn l).isOk = true :=
    fun l hl => hok l (hperm.mem_iff.mp hl)
  obtain ⟨store, hingest⟩ := ingest_ok_of_keys keyFn order [] hok'
  obtain ⟨hfin, hnd⟩ := ingest_keys keyFn order [] store hingest hok'
  refine ⟨store, hingest, ?_⟩
  have hnd' : (store.map Prod.fst).Nodup := hnd (by simp)
  have hcount : storeCount store = (store.map Prod.fst).toFinset.card := by
    rw [storeCount, List.toFinset_card_of_nodup hnd', List.length_map]
  have hguess : (fileKeys keyFn order).toFinset =
      (fileKeys keyFn files.flatten).toFinset :=
    List.toFinset_eq_of_perm _ _ (hperm.filterMap _)
  rw [hcount, hfin]
  simp only [List.map_nil, List.toFinset_nil, Finset.empty_union]
  rw [hguess, disjoint_files_card keyFn files hdisj]
  simp only [dedup_length_eq_card]

/-- Witness for C5: two one-line files with disjoint keys, ingested in an
order that interleaves them, end with two records in the store. -/
theorem ingest_disjoint_cardinality_witness :
    ∃ store, ingest kfLen [] ["bb", "a"] = .ok store ∧
      storeCount store =
        (([["a"], ["bb"]] : List (List String)).map
          fun f => (fileKeys kfLen f).dedup.length).sum :=
  ingest_disjoint_cardinality kfLen [["a"], ["bb"]] ["bb", "a"]
    (by decide) (by decide)
    (by
      refine List.Pairwise.cons ?_ (List.pairwise_singleton _ _)
      intro g hg k hk hk2
      simp only [List.mem_singleton] at hg
      subst hg
      simp only [fileKeys, kfLen, List.filterMap_cons, List.filterMap_nil,
        Except.toOption, List.mem_singleton] at hk hk2
      rw [hk] at hk2
      exact absurd hk2 (by decide))

end Rearranger
